import Mathlib

/-!
Verification of the multiivs core against its specification.

The development shallowly embeds the repository's TypeScript core:

* the threshold-cryptography coordination layer (`mhe` module): key share
  generation, combination of partial decryptions, decryption policies;
* the CKKS scale/level bookkeeping of the homomorphic wrapper functions
  (`ckks-production` / `ckks-mhe` modules), with the SEAL backend modelled
  at its interface (the backend itself is out of scope per the spec);
* Algorithm 4, the level-synchronous weighted BFS computing the Individual
  Vulnerability Score (IVS), both in its plaintext form
  (`computeIVSPlaintext` and the identically structured `computeIVS`) and
  in the bookkeeping of its encrypted form (`computeEncryptedIVS`,
  `computeEncryptedIVSProduction`), whose per-node contributions are
  tracked as `(node, weight)` pairs.

Numbers the source handles as JavaScript floats are embedded as `ℚ`: every
quantity the claims speak about (weights `1 / 2 ^ (d+1)`, health statuses
0/1, the reference vectors, the 0.001 tolerance) is a small dyadic or
decimal rational that float arithmetic represents exactly, so `ℚ` is a
faithful carrier for them.

The file is organised as definitions first, then the theorems settling the
claims.
-/

namespace Multiivs

/-! ## Threshold cryptography data model (mhe module)

Mirrors the `KeyShare`, `CommitteeMember`, `ThresholdParams`,
`PartialDecryption` and `DecryptionPolicy` interfaces of the source. Opaque
serialized SEAL material is carried as `String`. -/

structure KeyShare where
  partyId : String
  shareIndex : Nat
  secretShare : String
  publicKey : String
  deriving DecidableEq

structure CommitteeMember where
  id : String
  address : String
  publicKey : Option String := none
  deriving DecidableEq

structure ThresholdParams where
  totalShares : Nat
  threshold : Nat
  deriving DecidableEq

structure PartialDecryption where
  partyId : String
  shareIndex : Nat
  partialResult : String
  proof : Option String := none
  deriving DecidableEq

/-- Errors thrown by the mhe module.  The source throws `Error` objects with
message strings ("Committee size mismatch: …", "Insufficient shares: …"); a
JavaScript `TypeError` from reading a property of `undefined` (element 0 of
an empty array) is modelled as `runtimeTypeError`. -/
inductive MHEError where
  | committeeSizeMismatch (expected got : Nat)
  | insufficientShares (need got : Nat)
  | runtimeTypeError
  deriving DecidableEq

/-- The nondeterministic SEAL key generator of `MHEKeyGenerator`, modelled as
an oracle: `freshSecret i` is the serialized secret key the `i`-th call of
`keyGenerator.secretKey()` inside the share loop returns, and
`jointPublicKey` the serialized joint public key. -/
structure SealKeyGen where
  jointPublicKey : String
  freshSecret : Nat → String

/-- The share-construction loop of `MHEKeyGenerator.generateKeys`:
`for (let i = 0; i < committee.length; i++)` pushing a share with
`shareIndex = i + 1` built from committee member `i`. -/
def mkShares (kg : SealKeyGen) : Nat → List CommitteeMember → List KeyShare
  | _, [] => []
  | i, m :: rest =>
    { partyId := m.id
      shareIndex := i + 1
      secretShare := kg.freshSecret i
      publicKey := kg.jointPublicKey } :: mkShares kg (i + 1) rest

/-- Embedding of `MHEKeyGenerator.generateKeys`: throws a committee-size
mismatch when `committee.length !== this.params.totalShares`, otherwise
returns the joint public key together with one key share per member. -/
def generateKeys (kg : SealKeyGen) (params : ThresholdParams)
    (committee : List CommitteeMember) : Except MHEError (String × List KeyShare) :=
  if committee.length ≠ params.totalShares then
    .error (.committeeSizeMismatch params.totalShares committee.length)
  else
    .ok (kg.jointPublicKey, mkShares kg 0 committee)

/-- Embedding of `ThresholdDecryptor.combinePartialDecryptions`: throws
`InsufficientShares` when fewer than `threshold` partials are supplied;
otherwise loads and returns the FIRST partial's serialized plaintext
(`partialDecryptions[0].partialResult` — the source comments that the real
implementation would Lagrange-interpolate, but it does not).  Reading
element 0 of an empty list (reachable only when `threshold = 0`) is the
modelled runtime `TypeError`. -/
def combinePartialDecryptions (params : ThresholdParams)
    (partials : List PartialDecryption) : Except MHEError String :=
  if partials.length < params.threshold then
    .error (.insufficientShares params.threshold partials.length)
  else
    match partials with
    | [] => .error .runtimeTypeError
    | p :: _ => .ok p.partialResult

/-- Embedding of `ThresholdDecryptor.verifyPartialDecryption`: the source
body is `return true` for every input (committee members are trusted, the
optional ZK proof is never checked). -/
def verifyPartialDecryption {α β : Type} (part : PartialDecryption)
    (ciphertext : α) (publicKey : β) : Bool :=
  true

/-- Modelled from the spec: the Collecting → Combining transition drops the
partials that fail `verifyPartialDecryption` before combination (the source
itself never filters; this is §4.4's described dropping step). -/
def dropUnverifiable {α β : Type} (partials : List PartialDecryption)
    (ciphertext : α) (publicKey : β) : List PartialDecryption :=
  partials.filter fun p => verifyPartialDecryption p ciphertext publicKey

/-! ## Decryption policies (PolicyManager) -/

structure DecryptionPolicy where
  allowedRequesters : List String
  requiresAllShares : Bool
  auditLog : Bool
  expirationBlock : Option Nat := none
  deriving DecidableEq

/-- The `policies : Map<string, DecryptionPolicy>` of `PolicyManager`,
as an association list; `registerPolicy` prepends, and lookup takes the
most recent binding, matching `Map.set`/`Map.get` semantics. -/
def PolicyManager : Type := List (String × DecryptionPolicy)

def registerPolicy (mgr : PolicyManager) (dataCid : String)
    (policy : DecryptionPolicy) : PolicyManager :=
  (dataCid, policy) :: mgr

def lookupPolicy (mgr : PolicyManager) (dataCid : String) : Option DecryptionPolicy :=
  (List.find? (fun p => p.1 = dataCid) mgr).map Prod.snd

/-- Embedding of `PolicyManager.canDecrypt`: `false` when no policy is
registered for the CID; `true` when the policy's `allowedRequesters`
contains the wildcard `"*"`; otherwise membership of the requester.  A total
`Bool` function: the source body only reads the map and arrays, it cannot
throw. -/
def canDecrypt (mgr : PolicyManager) (dataCid requester : String) : Bool :=
  match lookupPolicy mgr dataCid with
  | none => false
  | some policy =>
    if policy.allowedRequesters.contains "*" then true
    else policy.allowedRequesters.contains requester

/-- Embedding of `PolicyManager.getRequiredShares`. -/
def getRequiredShares (mgr : PolicyManager) (dataCid : String)
    (totalShares threshold : Nat) : Nat :=
  match lookupPolicy mgr dataCid with
  | none => threshold
  | some policy => if policy.requiresAllShares then totalShares else threshold

/-! ## CKKS ciphertexts: scale and level bookkeeping

A ciphertext is modelled by the metadata the wrapper functions manipulate —
its `scale` and its modulus-chain position — together with the logical
plaintext payload it carries.  `level` counts the rescale steps still
available: `rescaleToNext` fails exactly at `level = 0` (the last usable
modulus level, where the source logs "Cannot rescale" and continues). -/

structure CipherText where
  scale : ℚ
  level : Nat
  value : ℚ
  deriving DecidableEq

/-- SEAL backend `evaluator.multiplyPlain`, modelled at the interface: the
scales multiply, the modulus level is untouched, the payloads multiply.
`ptScale` is the scale the plaintext operand was encoded at. -/
def evalMultiplyPlain (ct : CipherText) (ptScale ptValue : ℚ) : CipherText :=
  { scale := ct.scale * ptScale, level := ct.level, value := ct.value * ptValue }

/-- SEAL backend `evaluator.rescaleToNext`: divides the scale by the prime
dropped from the modulus chain (`prime l` at chain position `l`) and
consumes one level; throws — here `none` — when already at the last usable
level. -/
def rescaleToNext (prime : Nat → ℚ) (ct : CipherText) : Option CipherText :=
  if ct.level = 0 then none
  else some { scale := ct.scale / prime ct.level, level := ct.level - 1, value := ct.value }

/-- SEAL backend `evaluator.add`: requires matched operands; the result
keeps the (first) operand's scale and the lower of the two chain
positions, and the payloads add. -/
def evalAdd (c1 c2 : CipherText) : CipherText :=
  { scale := c1.scale, level := min c1.level c2.level, value := c1.value + c2.value }

/-- `ciphertext.setScale(s)` on a (cloned) ciphertext. -/
def setScale (ct : CipherText) (s : ℚ) : CipherText :=
  { ct with scale := s }

/-- Embedding of `multiplyByPlain` from the `ckks-production` module: clone
the operand, encode the plain weight at the CLONE'S OWN scale
(`ctx.encoder.encode(arr, cCopy.scale)`), multiply in place, then try
`rescaleToNext`, continuing with the un-rescaled product when the ciphertext
sits at the last modulus level. -/
def multiplyByPlainProd (prime : Nat → ℚ) (ct : CipherText) (plainValue : ℚ) : CipherText :=
  let cCopy := evalMultiplyPlain ct ct.scale plainValue
  match rescaleToNext prime cCopy with
  | some rescaled => rescaled
  | none => cCopy

/-- Embedding of `multiplyByPlain` from the `ckks-mhe` module: encodes the
plain weight at the CONTEXT's global scale (`ctx.encoder.encode(arr,
ctx.scale)`), multiplies into a fresh ciphertext and performs no rescale. -/
def multiplyByPlainMHE (ctxScale : ℚ) (ct : CipherText) (plainValue : ℚ) : CipherText :=
  evalMultiplyPlain ct ctxScale plainValue

/-- The scale-mismatch tolerance of `ckks-production`'s `add`:
`Math.abs(scale1 - scale2) > 0.001`, an ABSOLUTE comparison. -/
def scaleTolerance : ℚ := 1 / 1000

/-- Embedding of `add` from the `ckks-production` module: when the two
scales differ by more than `scaleTolerance` in absolute value, both operands
are cloned (`cloneCiphertext`), the clones coerced with `setScale` to the
smaller of the two scales, and the clones added; otherwise the operands are
added directly.  The embedding is pure, so the cloning shows up as the
originals `c1`, `c2` being untouched values. -/
def addProd (c1 c2 : CipherText) : CipherText :=
  if |c1.scale - c2.scale| > scaleTolerance then
    evalAdd (setScale c1 (min c1.scale c2.scale)) (setScale c2 (min c1.scale c2.scale))
  else
    evalAdd c1 c2

/-- The tolerance reading of the spec's words for claim C8: scales compared
by RELATIVE error 1e-3 (relative to the larger magnitude).  Stated from the
spec, to be compared with the source's absolute comparison in `addProd`. -/
def relScaleDiff (s1 s2 : ℚ) : ℚ :=
  |s1 - s2| / max |s1| |s2|

/-! ## Algorithm 4: level-synchronous weighted BFS

Embedding of `computeIVSPlaintext` (and the identically structured
`computeIVS`).  Per source `s` the loop keeps a `visited` list and a
`frontier` list, both started at `[s]`; each depth adds
`w(depth) * infected u` for every frontier node `u`, then expands the
frontier to the unvisited neighbours, marking them visited as they are
pushed (`if (!visited.has(v)) { visited.add(v); next.push(v) }`).  The
JavaScript `for (depth = 0; depth <= Dmax && frontier.length > 0; depth++)`
loop is embedded with fuel `Dmax + 1 - depth`.  The contact map's
`contacts.get(u) || []` and the infection map's `infected.get(u) ?? 0`
defaults make both total functions. -/

/-- One neighbour merged into `(visited, nextFrontier)`. -/
def addNode {V : Type} [DecidableEq V] (acc : List V × List V) (v : V) :
    List V × List V :=
  if v ∈ acc.1 then acc else (acc.1 ++ [v], acc.2 ++ [v])

/-- The frontier-expansion double loop of `computeIVSPlaintext`. -/
def expandFrontier {V : Type} [DecidableEq V] (contacts : V → List V)
    (visited frontier : List V) : List V × List V :=
  frontier.foldl (fun acc u => (contacts u).foldl addNode acc) (visited, [])

/-- The depth loop of `computeIVSPlaintext`, one recursion step per
iteration (fuel counts the remaining iterations, `Dmax + 1 - depth`). -/
def bfsLoop {V : Type} [DecidableEq V] (contacts : V → List V) (infected : V → ℚ) :
    Nat → Nat → List V → List V → ℚ → ℚ
  | 0, _, _, _, acc => acc
  | fuel + 1, depth, visited, frontier, acc =>
    if frontier.isEmpty then acc
    else
      bfsLoop contacts infected fuel (depth + 1)
        (expandFrontier contacts visited frontier).1
        (expandFrontier contacts visited frontier).2
        (acc + (frontier.map fun u => (1 / 2 ^ (depth + 1) : ℚ) * infected u).sum)

/-- The per-source BFS accumulation of `computeIVSPlaintext`. -/
def ivsFor {V : Type} [DecidableEq V] (contacts : V → List V) (infected : V → ℚ)
    (Dmax : Nat) (s : V) : ℚ :=
  bfsLoop contacts infected (Dmax + 1) 0 [s] [s] 0

/-- Embedding of `computeIVSPlaintext` / `computeIVS`: the `ivs` map, as the
association list pairing each user with their accumulated score. -/
def computeIVSPlaintext {V : Type} [DecidableEq V] (users : List V)
    (contacts : V → List V) (infected : V → ℚ) (Dmax : Nat) : List (V × ℚ) :=
  users.map fun s => (s, ivsFor contacts infected Dmax s)

/-- Reachability within `n` steps from `s` along the (plaintext) contact
adjacency — the specification-side notion the BFS is measured against:
`reachIn contacts s n v` holds exactly when some contact path of length at
most `n` leads from `s` to `v`. -/
def reachIn {V : Type} (contacts : V → List V) (s : V) : Nat → V → Prop
  | 0 => fun v => v = s
  | n + 1 => fun v =>
      reachIn contacts s n v ∨ ∃ u, reachIn contacts s n u ∧ v ∈ contacts u

/-- Shortest-path distance exactly `d`: reachable within `d` steps but (for
`d > 0`) not within `d - 1`. -/
def atDistance {V : Type} (contacts : V → List V) (s : V) : Nat → V → Prop
  | 0 => fun v => v = s
  | d + 1 => fun v => reachIn contacts s (d + 1) v ∧ ¬ reachIn contacts s d v

/-- Decidability of bounded reachability (the existential ranges over the
finite vertex type). -/
def reachInDec {V : Type} [DecidableEq V] [Fintype V] (contacts : V → List V)
    (s : V) : (n : Nat) → (v : V) → Decidable (reachIn contacts s n v)
  | 0, v => decidable_of_iff (v = s) Iff.rfl
  | n + 1, v =>
    letI : ∀ u, Decidable (reachIn contacts s n u) := reachInDec contacts s n
    decidable_of_iff
      (reachIn contacts s n v ∨ ∃ u, reachIn contacts s n u ∧ v ∈ contacts u) Iff.rfl

instance {V : Type} [DecidableEq V] [Fintype V] (contacts : V → List V) (s : V)
    (n : Nat) (v : V) : Decidable (reachIn contacts s n v) :=
  reachInDec contacts s n v

instance {V : Type} [DecidableEq V] [Fintype V] (contacts : V → List V) (s : V)
    (d : Nat) (v : V) : Decidable (atDistance contacts s d v) :=
  match d with
  | 0 => decidable_of_iff (v = s) Iff.rfl
  | d + 1 =>
    decidable_of_iff (reachIn contacts s (d + 1) v ∧ ¬ reachIn contacts s d v) Iff.rfl

/-- The set of vertices at shortest-path distance exactly `d` from `s`. -/
def levelFinset {V : Type} [DecidableEq V] [Fintype V] (contacts : V → List V)
    (s : V) (d : Nat) : Finset V :=
  Finset.univ.filter fun v => atDistance contacts s d v

/-- The (visited, frontier) pair of the BFS after `d` completed expansions:
the state in which depth `d`'s contributions are accumulated. -/
def bfsState {V : Type} [DecidableEq V] (contacts : V → List V) (s : V) :
    Nat → List V × List V
  | 0 => ([s], [s])
  | d + 1 => expandFrontier contacts (bfsState contacts s d).1 (bfsState contacts s d).2

/-! ## The encrypted-IVS BFS variant

`computeEncryptedIVS` (encrypted-ivs module) and
`computeEncryptedIVSProduction` run the same level-synchronous traversal
with a slightly different bookkeeping: `visited` starts EMPTY and nodes are
checked and marked at PROCESSING time (`if (visited.has(node)) continue;
visited.add(node)`), so a frontier may carry nodes of the previous depth,
which are then skipped.  What the loop accumulates per processed node is a
contribution `weight(depth) · health[node]`; the production version
literally collects the `(ciphertext, weight)` pairs before summing.  The
embedding records the `(node, weight)` contribution pairs in processing
order, so the claims about which nodes receive which weight are statements
about this list.  Health data is modelled as present for every node (the
reference runs populate `encryptedHealth` for every user; a node with no
entry would contribute nothing and, in these two functions, also skip its
frontier expansion). -/

/-- Neighbour merge of the encrypted-IVS BFS: `if (!visited.has(neighbor))
nextFrontier.add(neighbor)` — `vis1` is the visited list at the time of the
scan, and the JS `Set.add` is a guarded append. -/
def addNeighbor {V : Type} [DecidableEq V] (vis1 nf : List V) (v : V) : List V :=
  if v ∈ vis1 ∨ v ∈ nf then nf else nf ++ [v]

/-- One frontier node processed by `computeEncryptedIVS` /
`computeEncryptedIVSProduction`: skip when already visited, otherwise mark
visited, record the contribution `(node, weight)` and merge the unvisited
neighbours into the next frontier.  State: `(visited, nextFrontier,
contributions)`. -/
def visitNode {V : Type} [DecidableEq V] (contacts : V → List V) (w : ℚ)
    (st : List V × List V × List (V × ℚ)) (node : V) :
    List V × List V × List (V × ℚ) :=
  if node ∈ st.1 then st
  else
    (st.1 ++ [node],
     (contacts node).foldl (addNeighbor (st.1 ++ [node])) st.2.1,
     st.2.2 ++ [(node, w)])

/-- The depth loop of the encrypted-IVS computation (fuel
`Dmax + 1 - depth`), returning the collected contribution pairs. -/
def encLoop {V : Type} [DecidableEq V] (contacts : V → List V) :
    Nat → Nat → List V → List V → List (V × ℚ) → List (V × ℚ)
  | 0, _, _, _, contribs => contribs
  | fuel + 1, depth, visited, frontier, contribs =>
    if frontier.isEmpty then contribs
    else
      encLoop contacts fuel (depth + 1)
        (frontier.foldl (visitNode contacts (1 / 2 ^ (depth + 1))) (visited, [], contribs)).1
        (frontier.foldl (visitNode contacts (1 / 2 ^ (depth + 1))) (visited, [], contribs)).2.1
        (frontier.foldl (visitNode contacts (1 / 2 ^ (depth + 1))) (visited, [], contribs)).2.2

/-- The `(node, weight)` contributions the encrypted-IVS BFS accumulates
into `IVS[s]`: `visited` starts empty, `frontier` starts at `{s}`. -/
def encContribs {V : Type} [DecidableEq V] (contacts : V → List V)
    (Dmax : Nat) (s : V) : List (V × ℚ) :=
  encLoop contacts (Dmax + 1) 0 [] [s] []

/-! ## The six-user reference graph

Users `U1..U6`, edges `U1–U2, U2–U3, U2–U5, U3–U4, U3–U6`, and the two
infection maps of `testAlgorithm4`, carried as the source carries them: a
user list, a contact `Map` defaulting to `[]`, infection `Map`s defaulting
to 0. -/

def usersRef : List String := ["U1", "U2", "U3", "U4", "U5", "U6"]

def contactsRef : String → List String := fun u =>
  (((([("U1", ["U2"]), ("U2", ["U1", "U3", "U5"]), ("U3", ["U2", "U4", "U6"]),
      ("U4", ["U3"]), ("U5", ["U2"]), ("U6", ["U3"])] :
        List (String × List String)).find? (fun p => p.1 = u)).map Prod.snd).getD [])

/-- Disease A infected set `{U2, U6}`. -/
def infectedA : String → ℚ := fun u =>
  ((([("U1", (0 : ℚ)), ("U2", 1), ("U3", 0), ("U4", 0), ("U5", 0), ("U6", 1)] :
      List (String × ℚ)).find? (fun p => p.1 = u)).map Prod.snd).getD 0

/-- Disease B infected set `{U1, U5}`. -/
def infectedB : String → ℚ := fun u =>
  ((([("U1", (1 : ℚ)), ("U2", 0), ("U3", 0), ("U4", 0), ("U5", 1), ("U6", 0)] :
      List (String × ℚ)).find? (fun p => p.1 = u)).map Prod.snd).getD 0

/-! ## Theorems -/

section BFSLemmas

variable {V : Type} [DecidableEq V]

lemma atDistance_reachIn (contacts : V → List V) (s : V) : ∀ (d : Nat) (v : V),
    atDistance contacts s d v → reachIn contacts s d v
  | 0, _, h => h
  | _ + 1, _, h => h.1

lemma edge_step (contacts : V → List V) (s : V) : ∀ (d : Nat) (u v : V),
    reachIn contacts s d u → v ∈ contacts u →
    reachIn contacts s d v ∨ ∃ w, atDistance contacts s d w ∧ v ∈ contacts w := by
  intro d
  induction d with
  | zero =>
    intro u v hu he
    exact Or.inr ⟨u, hu, he⟩
  | succ d ih =>
    intro u v hu he
    by_cases hdu : reachIn contacts s d u
    · rcases ih u v hdu he with h | ⟨w, hw, he2⟩
      · exact Or.inl (Or.inl h)
      · exact Or.inl (Or.inr ⟨w, atDistance_reachIn contacts s d w hw, he2⟩)
    · exact Or.inr ⟨u, ⟨hu, hdu⟩, he⟩

lemma reachIn_succ_levels (contacts : V → List V) (s : V) (d : Nat) (v : V) :
    reachIn contacts s (d + 1) v ↔
      reachIn contacts s d v ∨ ∃ u, atDistance contacts s d u ∧ v ∈ contacts u := by
  constructor
  · rintro (h | ⟨u, hu, he⟩)
    · exact Or.inl h
    · exact edge_step contacts s d u v hu he
  · rintro (h | ⟨u, hu, he⟩)
    · exact Or.inl h
    · exact Or.inr ⟨u, atDistance_reachIn contacts s d u hu, he⟩

lemma atDistance_succ_levels (contacts : V → List V) (s : V) (d : Nat) (v : V) :
    atDistance contacts s (d + 1) v ↔
      (∃ u, atDistance contacts s d u ∧ v ∈ contacts u) ∧ ¬ reachIn contacts s d v := by
  show reachIn contacts s (d + 1) v ∧ ¬ reachIn contacts s d v ↔ _
  rw [reachIn_succ_levels]
  tauto

lemma atDistance_empty_ge (contacts : V → List V) (s : V) (d e : Nat) (hde : d ≤ e)
    (h : ∀ v, ¬ atDistance contacts s d v) :
    ∀ v, ¬ atDistance contacts s e v := by
  induction hde with
  | refl => exact h
  | @step e _ ih =>
    intro v hv
    rw [atDistance_succ_levels] at hv
    obtain ⟨⟨u, hu, _⟩, _⟩ := hv
    exact ih u hu

lemma foldl_addNode_spec (l : List V) :
    ∀ vis nxt : List V, nxt.Nodup → (∀ v ∈ nxt, v ∈ vis) →
      (∀ v, v ∈ (l.foldl addNode (vis, nxt)).1 ↔ v ∈ vis ∨ v ∈ l) ∧
      (∀ v, v ∈ (l.foldl addNode (vis, nxt)).2 ↔ v ∈ nxt ∨ (v ∈ l ∧ v ∉ vis)) ∧
      (l.foldl addNode (vis, nxt)).2.Nodup ∧
      (∀ v ∈ (l.foldl addNode (vis, nxt)).2, v ∈ (l.foldl addNode (vis, nxt)).1) := by
  induction l with
  | nil =>
    intro vis nxt h1 h2
    exact ⟨fun v => by simp, fun v => by simp, h1, h2⟩
  | cons w l ih =>
    intro vis nxt h1 h2
    by_cases hw : w ∈ vis
    · have hstep : (w :: l).foldl addNode (vis, nxt) = l.foldl addNode (vis, nxt) := by
        simp [List.foldl_cons, addNode, hw]
      obtain ⟨m1, m2, nd, sub⟩ := ih vis nxt h1 h2
      rw [hstep]
      refine ⟨fun v => ?_, fun v => ?_, nd, sub⟩
      · rw [m1 v, List.mem_cons]
        by_cases hv : v = w
        · subst hv; tauto
        · tauto
      · rw [m2 v, List.mem_cons]
        by_cases hv : v = w
        · subst hv; tauto
        · tauto
    · have hstep : (w :: l).foldl addNode (vis, nxt)
          = l.foldl addNode (vis ++ [w], nxt ++ [w]) := by
        simp [List.foldl_cons, addNode, hw]
      have hwn : w ∉ nxt := fun hmem => hw (h2 w hmem)
      have h1b : (nxt ++ [w]).Nodup := by
        rw [List.nodup_append]
        refine ⟨h1, List.nodup_singleton w, ?_⟩
        intro x hx hx2
        rw [List.mem_singleton] at hx2
        subst hx2
        exact hwn hx
      have h2b : ∀ v ∈ nxt ++ [w], v ∈ vis ++ [w] := by
        intro v hv
        rcases List.mem_append.mp hv with h | h
        · exact List.mem_append.mpr (Or.inl (h2 v h))
        · exact List.mem_append.mpr (Or.inr h)
      obtain ⟨m1, m2, nd, sub⟩ := ih (vis ++ [w]) (nxt ++ [w]) h1b h2b
      rw [hstep]
      refine ⟨fun v => ?_, fun v => ?_, nd, sub⟩
      · rw [m1 v, List.mem_append, List.mem_singleton, List.mem_cons]
        by_cases hv : v = w
        · subst hv; tauto
        · tauto
      · rw [m2 v, List.mem_append, List.mem_singleton, List.mem_append,
          List.mem_singleton, List.mem_cons]
        by_cases hv : v = w
        · subst hv; tauto
        · tauto

lemma foldl_outer_eq (contacts : V → List V) (frontier : List V) :
    ∀ acc : List V × List V,
      frontier.foldl (fun acc u => (contacts u).foldl addNode acc) acc
        = (frontier.flatMap contacts).foldl addNode acc := by
  induction frontier with
  | nil => intro acc; rfl
  | cons u fr ih =>
    intro acc
    rw [List.foldl_cons, ih, List.flatMap_cons, List.foldl_append]

lemma expandFrontier_spec (contacts : V → List V) (visited frontier : List V) :
    (∀ v, v ∈ (expandFrontier contacts visited frontier).1 ↔
        v ∈ visited ∨ ∃ u ∈ frontier, v ∈ contacts u) ∧
    (∀ v, v ∈ (expandFrontier contacts visited frontier).2 ↔
        (∃ u ∈ frontier, v ∈ contacts u) ∧ v ∉ visited) ∧
    (expandFrontier contacts visited frontier).2.Nodup := by
  have he : expandFrontier contacts visited frontier
      = (frontier.flatMap contacts).foldl addNode (visited, []) :=
    foldl_outer_eq contacts frontier (visited, [])
  obtain ⟨m1, m2, nd, _⟩ :=
    foldl_addNode_spec (frontier.flatMap contacts) visited [] List.nodup_nil (by simp)
  rw [he]
  refine ⟨fun v => ?_, fun v => ?_, nd⟩
  · rw [m1 v, List.mem_flatMap]
  · rw [m2 v, List.mem_flatMap]
    simp

lemma bfsState_spec (contacts : V → List V) (s : V) :
    ∀ d : Nat,
      (∀ v, v ∈ (bfsState contacts s d).1 ↔ reachIn contacts s d v) ∧
      (∀ v, v ∈ (bfsState contacts s d).2 ↔ atDistance contacts s d v) ∧
      (bfsState contacts s d).2.Nodup := by
  intro d
  induction d with
  | zero =>
    refine ⟨fun v => ?_, fun v => ?_, List.nodup_singleton s⟩
    · show v ∈ [s] ↔ v = s
      simp
    · show v ∈ [s] ↔ v = s
      simp
  | succ d ih =>
    obtain ⟨h1, h2, hnd⟩ := ih
    have hstate : bfsState contacts s (d + 1)
        = expandFrontier contacts (bfsState contacts s d).1 (bfsState contacts s d).2 := rfl
    obtain ⟨e1, e2, hnd2⟩ :=
      expandFrontier_spec contacts (bfsState contacts s d).1 (bfsState contacts s d).2
    refine ⟨fun v => ?_, fun v => ?_, by rw [hstate]; exact hnd2⟩
    · rw [hstate, e1 v, reachIn_succ_levels]
      constructor
      · rintro (h | ⟨u, hu, he⟩)
        · exact Or.inl ((h1 v).mp h)
        · exact Or.inr ⟨u, (h2 u).mp hu, he⟩
      · rintro (h | ⟨u, hu, he⟩)
        · exact Or.inl ((h1 v).mpr h)
        · exact Or.inr ⟨u, (h2 u).mpr hu, he⟩
    · rw [hstate, e2 v, atDistance_succ_levels]
      constructor
      · rintro ⟨⟨u, hu, he⟩, hnv⟩
        exact ⟨⟨u, (h2 u).mp hu, he⟩, fun hr => hnv ((h1 v).mpr hr)⟩
      · rintro ⟨⟨u, hu, he⟩, hnv⟩
        exact ⟨⟨u, (h2 u).mpr hu, he⟩, fun hr => hnv ((h1 v).mp hr)⟩

lemma frontier_toFinset [Fintype V] (contacts : V → List V) (s : V) (d : Nat) :
    ((bfsState contacts s d).2).toFinset = levelFinset contacts s d := by
  obtain ⟨_, h2, _⟩ := bfsState_spec contacts s d
  ext v
  simp only [List.mem_toFinset, levelFinset, Finset.mem_filter, Finset.mem_univ,
    true_and]
  exact h2 v

lemma bfsLoop_formula [Fintype V] (contacts : V → List V) (infected : V → ℚ)
    (s : V) (Dmax : Nat) :
    ∀ (fuel d : Nat) (acc : ℚ), fuel + d = Dmax + 1 →
      bfsLoop contacts infected fuel d
          (bfsState contacts s d).1 (bfsState contacts s d).2 acc
        = acc + ∑ e in Finset.Ico d (Dmax + 1),
            (1 / 2 ^ (e + 1) : ℚ) * ∑ v in levelFinset contacts s e, infected v := by
  intro fuel
  induction fuel with
  | zero =>
    intro d acc hfd
    have hd : d = Dmax + 1 := by omega
    subst hd
    simp [bfsLoop]
  | succ fuel ih =>
    intro d acc hfd
    by_cases hemp : (bfsState contacts s d).2.isEmpty
    · have hret : bfsLoop contacts infected (fuel + 1) d
          (bfsState contacts s d).1 (bfsState contacts s d).2 acc = acc := by
        rw [bfsLoop, if_pos hemp]
      rw [hret]
      have hempty_d : ∀ v, ¬ atDistance contacts s d v := by
        obtain ⟨_, h2, _⟩ := bfsState_spec contacts s d
        intro v hv
        have hmem := (h2 v).mpr hv
        rw [List.isEmpty_iff] at hemp
        rw [hemp] at hmem
        exact List.not_mem_nil v hmem
      have hzero : ∀ e ∈ Finset.Ico d (Dmax + 1),
          (1 / 2 ^ (e + 1) : ℚ) * ∑ v in levelFinset contacts s e, infected v = 0 := by
        intro e he
        have hempty_e :=
          atDistance_empty_ge contacts s d e (Finset.mem_Ico.mp he).1 hempty_d
        have hset : levelFinset contacts s e = ∅ := by
          ext v
          simp [levelFinset, hempty_e v]
        rw [hset]
        simp
      rw [Finset.sum_eq_zero hzero, add_zero]
    · have hlt : d < Dmax + 1 := by omega
      have hstep : bfsLoop contacts infected (fuel + 1) d
            (bfsState contacts s d).1 (bfsState contacts s d).2 acc
          = bfsLoop contacts infected fuel (d + 1)
              (bfsState contacts s (d + 1)).1 (bfsState contacts s (d + 1)).2
              (acc + ((bfsState contacts s d).2.map
                fun u => (1 / 2 ^ (d + 1) : ℚ) * infected u).sum) := by
        rw [bfsLoop, if_neg hemp]
        rfl
      rw [hstep, ih (d + 1) _ (by omega)]
      have hsum : ((bfsState contacts s d).2.map
            fun u => (1 / 2 ^ (d + 1) : ℚ) * infected u).sum
          = (1 / 2 ^ (d + 1) : ℚ) * ∑ v in levelFinset contacts s d, infected v := by
        rw [List.sum_map_mul_left]
        congr 1
        rw [← frontier_toFinset contacts s d]
        obtain ⟨_, _, hnd⟩ := bfsState_spec contacts s d
        rw [List.sum_toFinset _ hnd]
      rw [hsum, Finset.sum_eq_sum_Ico_succ_bot hlt]
      ring

lemma bfsLoop_nil (contacts : V → List V) (infected : V → ℚ)
    (fuel depth : Nat) (visited : List V) (acc : ℚ) :
    bfsLoop contacts infected fuel depth visited [] acc = acc := by
  cases fuel with
  | zero => rfl
  | succ fuel => rfl

lemma reachIn_mono (contacts : V → List V) (s : V) {m n : Nat} (h : m ≤ n) :
    ∀ v, reachIn contacts s m v → reachIn contacts s n v := by
  induction h with
  | refl => exact fun v hv => hv
  | step _ ih => exact fun v hv => Or.inl (ih v hv)

lemma reachIn_succ_split (contacts : V → List V) (s : V) (d : Nat) (v : V) :
    reachIn contacts s (d + 1) v ↔
      reachIn contacts s d v ∨ atDistance contacts s (d + 1) v := by
  constructor
  · intro h2
    by_cases h : reachIn contacts s d v
    · exact Or.inl h
    · exact Or.inr ⟨h2, h⟩
  · rintro (h | h)
    · exact Or.inl h
    · exact h.1

lemma reachIn_iff_exists_level (contacts : V → List V) (s : V) : ∀ (d : Nat) (v : V),
    reachIn contacts s d v ↔ ∃ e ≤ d, atDistance contacts s e v := by
  intro d
  induction d with
  | zero =>
    intro v
    constructor
    · exact fun h => ⟨0, le_refl 0, h⟩
    · rintro ⟨e, he, h⟩
      have he0 : e = 0 := by omega
      subst he0
      exact h
  | succ d ih =>
    intro v
    rw [reachIn_succ_split]
    constructor
    · rintro (h | h)
      · obtain ⟨e, he, h2⟩ := (ih v).mp h
        exact ⟨e, by omega, h2⟩
      · exact ⟨d + 1, le_refl _, h⟩
    · rintro ⟨e, he, h⟩
      rcases Nat.lt_or_ge e (d + 1) with hlt | hge
      · exact Or.inl ((ih v).mpr ⟨e, by omega, h⟩)
      · have he2 : e = d + 1 := by omega
        subst he2
        exact Or.inr h

lemma atDistance_unique (contacts : V → List V) (s : V) :
    ∀ (d e : Nat) (v : V), atDistance contacts s d v → atDistance contacts s e v →
    d = e := by
  have key : ∀ (d e : Nat) (v : V), d < e → atDistance contacts s d v →
      atDistance contacts s e v → False := by
    intro d e v hlt hd he
    cases e with
    | zero => omega
    | succ f =>
      exact he.2 (reachIn_mono contacts s (by omega : d ≤ f) v
        (atDistance_reachIn contacts s d v hd))
  intro d e v hd he
  rcases Nat.lt_trichotomy d e with h | h | h
  · exact (key d e v h hd he).elim
  · exact h
  · exact (key e d v h he hd).elim

lemma foldl_addNeighbor_spec (vis1 : List V) (l : List V) (nf : List V) :
    (∀ v, v ∈ l.foldl (addNeighbor vis1) nf ↔ v ∈ nf ∨ (v ∈ l ∧ v ∉ vis1)) ∧
    (nf.Nodup → (l.foldl (addNeighbor vis1) nf).Nodup) := by
  induction l generalizing nf with
  | nil =>
    exact ⟨fun v => by simp, fun h => h⟩
  | cons x l ih =>
    by_cases hx : x ∈ vis1 ∨ x ∈ nf
    · have hstep : (x :: l).foldl (addNeighbor vis1) nf = l.foldl (addNeighbor vis1) nf := by
        simp [List.foldl_cons, addNeighbor, hx]
      rw [hstep]
      obtain ⟨m, nd⟩ := ih nf
      refine ⟨fun v => ?_, nd⟩
      rw [m v, List.mem_cons]
      by_cases hv : v = x
      · subst hv; tauto
      · tauto
    · push_neg at hx
      have hstep : (x :: l).foldl (addNeighbor vis1) nf
          = l.foldl (addNeighbor vis1) (nf ++ [x]) := by
        simp [List.foldl_cons, addNeighbor, hx.1, hx.2]
      rw [hstep]
      obtain ⟨m, nd⟩ := ih (nf ++ [x])
      refine ⟨fun v => ?_, fun hnf => nd ?_⟩
      · rw [m v, List.mem_append, List.mem_singleton, List.mem_cons]
        by_cases hv : v = x
        · subst hv; tauto
        · tauto
      · rw [List.nodup_append]
        refine ⟨hnf, List.nodup_singleton x, ?_⟩
        intro a ha ha2
        rw [List.mem_singleton] at ha2
        subst ha2
        exact hx.2 ha

lemma foldl_visitNode_spec (contacts : V → List V) (w : ℚ) (fr : List V) :
    ∀ (vis nf : List V) (cs : List (V × ℚ)),
      (∀ p ∈ cs, p.1 ∈ vis) → (cs.map Prod.fst).Nodup → nf.Nodup →
      (∀ v, v ∈ (fr.foldl (visitNode contacts w) (vis, nf, cs)).1 ↔ v ∈ vis ∨ v ∈ fr) ∧
      (∀ q : V × ℚ, q ∈ (fr.foldl (visitNode contacts w) (vis, nf, cs)).2.2 ↔
          q ∈ cs ∨ (q.1 ∈ fr ∧ q.1 ∉ vis ∧ q.2 = w)) ∧
      ((fr.foldl (visitNode contacts w) (vis, nf, cs)).2.2.map Prod.fst).Nodup ∧
      (fr.foldl (visitNode contacts w) (vis, nf, cs)).2.1.Nodup ∧
      (∀ v ∈ (fr.foldl (visitNode contacts w) (vis, nf, cs)).2.1,
          v ∈ nf ∨ ∃ u ∈ fr, v ∈ contacts u) ∧
      (∀ u v, u ∈ fr → u ∉ vis → v ∈ contacts u →
          v ∉ (fr.foldl (visitNode contacts w) (vis, nf, cs)).1 →
          v ∈ (fr.foldl (visitNode contacts w) (vis, nf, cs)).2.1) ∧
      (∀ v ∈ vis, v ∈ (fr.foldl (visitNode contacts w) (vis, nf, cs)).1) ∧
      (∀ v ∈ nf, v ∈ (fr.foldl (visitNode contacts w) (vis, nf, cs)).2.1) := by
  induction fr with
  | nil =>
    intro vis nf cs hcs hnd hnf
    refine ⟨fun v => by simp, fun q => by simp, hnd, hnf, ?_, ?_, ?_, ?_⟩
    · exact fun v hv => Or.inl hv
    · intro u v hu
      exact absurd hu (List.not_mem_nil u)
    · exact fun v hv => hv
    · exact fun v hv => hv
  | cons u fr ih =>
    intro vis nf cs hcs hnd hnf
    by_cases hu : u ∈ vis
    · have hstep : (u :: fr).foldl (visitNode contacts w) (vis, nf, cs)
          = fr.foldl (visitNode contacts w) (vis, nf, cs) := by
        simp [List.foldl_cons, visitNode, hu]
      rw [hstep]
      obtain ⟨m1, m2, c3, c4, c5, c6, c7, c8⟩ := ih vis nf cs hcs hnd hnf
      refine ⟨fun v => ?_, fun q => ?_, c3, c4, ?_, ?_, c7, c8⟩
      · rw [m1 v, List.mem_cons]
        by_cases hv : v = u
        · subst hv; tauto
        · tauto
      · obtain ⟨q1, q2⟩ := q
        rw [m2 (q1, q2)]
        simp only [List.mem_cons]
        by_cases hq : q1 = u
        · subst hq; tauto
        · tauto
      · intro v hv
        rcases c5 v hv with h | ⟨u2, hu2, he⟩
        · exact Or.inl h
        · exact Or.inr ⟨u2, List.mem_cons_of_mem u hu2, he⟩
      · intro u2 v hu2 hu2v he hv
        rcases List.mem_cons.mp hu2 with h | h
        · subst h
          exact absurd hu hu2v
        · exact c6 u2 v h hu2v he hv
    · have hstep : (u :: fr).foldl (visitNode contacts w) (vis, nf, cs)
          = fr.foldl (visitNode contacts w)
              (vis ++ [u],
               (contacts u).foldl (addNeighbor (vis ++ [u])) nf,
               cs ++ [(u, w)]) := by
        simp [List.foldl_cons, visitNode, hu]
      rw [hstep]
      obtain ⟨mn, ndn⟩ := foldl_addNeighbor_spec (vis ++ [u]) (contacts u) nf
      have hcs2 : ∀ p ∈ cs ++ [(u, w)], p.1 ∈ vis ++ [u] := by
        intro p hp
        rcases List.mem_append.mp hp with h | h
        · exact List.mem_append.mpr (Or.inl (hcs p h))
        · rw [List.mem_singleton] at h
          subst h
          exact List.mem_append.mpr (Or.inr (List.mem_singleton.mpr rfl))
      have hnd2 : ((cs ++ [(u, w)]).map Prod.fst).Nodup := by
        rw [List.map_append, List.nodup_append]
        refine ⟨hnd, by simp, ?_⟩
        intro a ha ha2
        simp only [List.map_cons, List.map_nil, List.mem_singleton] at ha2
        subst ha2
        obtain ⟨p, hp, hp2⟩ := List.mem_map.mp ha
        exact hu (hp2 ▸ hcs p hp)
      have hnf2 : ((contacts u).foldl (addNeighbor (vis ++ [u])) nf).Nodup := ndn hnf
      obtain ⟨m1, m2, c3, c4, c5, c6, c7, c8⟩ :=
        ih (vis ++ [u]) ((contacts u).foldl (addNeighbor (vis ++ [u])) nf)
          (cs ++ [(u, w)]) hcs2 hnd2 hnf2
      refine ⟨fun v => ?_, fun q => ?_, c3, c4, ?_, ?_, ?_, ?_⟩
      · rw [m1 v, List.mem_append, List.mem_singleton, List.mem_cons]
        by_cases hv : v = u
        · subst hv; tauto
        · tauto
      · obtain ⟨q1, q2⟩ := q
        rw [m2 (q1, q2)]
        simp only [List.mem_append, List.mem_singleton, List.mem_cons,
          Prod.mk.injEq]
        by_cases hq : q1 = u
        · subst hq; tauto
        · tauto
      · intro v hv
        rcases c5 v hv with h | ⟨u2, hu2, he⟩
        · rcases (mn v).mp h with h2 | ⟨h2, _⟩
          · exact Or.inl h2
          · exact Or.inr ⟨u, List.mem_cons_self u fr, h2⟩
        · exact Or.inr ⟨u2, List.mem_cons_of_mem u hu2, he⟩
      · intro u2 v hu2 hu2v he hv
        by_cases hq : u2 = u
        · subst hq
          have hvnotvis : v ∉ vis ++ [u2] := fun hcontra => hv (c7 v hcontra)
          exact c8 v ((mn v).mpr (Or.inr ⟨he, hvnotvis⟩))
        · have hfr : u2 ∈ fr := by
            rcases List.mem_cons.mp hu2 with h | h
            · exact absurd h hq
            · exact h
          have hu2vis : u2 ∉ vis ++ [u] := by
            rw [List.mem_append, List.mem_singleton]
            push_neg
            exact ⟨hu2v, hq⟩
          exact c6 u2 v hfr hu2vis he hv
      · intro v hv
        exact c7 v (List.mem_append.mpr (Or.inl hv))
      · intro v hv
        exact c8 v ((mn v).mpr (Or.inl hv))

lemma encLoop_spec (contacts : V → List V) (s : V) (Dmax : Nat) :
    ∀ (fuel d : Nat) (vis fr : List V) (cs : List (V × ℚ)),
      fuel + d = Dmax + 1 →
      (∀ v, v ∈ vis ↔ ∃ e, e < d ∧ atDistance contacts s e v) →
      (∀ v ∈ fr, reachIn contacts s d v) →
      (∀ v, atDistance contacts s d v → v ∈ fr) →
      (∀ q : V × ℚ, q ∈ cs ↔
          ∃ e, e < d ∧ atDistance contacts s e q.1 ∧ q.2 = 1 / 2 ^ (e + 1)) →
      (cs.map Prod.fst).Nodup →
      ((encLoop contacts fuel d vis fr cs).map Prod.fst).Nodup ∧
      (∀ q : V × ℚ, q ∈ encLoop contacts fuel d vis fr cs ↔
          ∃ e, e ≤ Dmax ∧ atDistance contacts s e q.1 ∧ q.2 = 1 / 2 ^ (e + 1)) := by
  intro fuel
  induction fuel with
  | zero =>
    intro d vis fr cs hfd hvis hfr1 hfr2 hcs hnd
    have hd : d = Dmax + 1 := by omega
    subst hd
    refine ⟨hnd, fun q => ?_⟩
    rw [show encLoop contacts 0 (Dmax + 1) vis fr cs = cs from rfl, hcs q]
    constructor
    · rintro ⟨e, he, h1, h2⟩
      exact ⟨e, by omega, h1, h2⟩
    · rintro ⟨e, he, h1, h2⟩
      exact ⟨e, by omega, h1, h2⟩
  | succ fuel ih =>
    intro d vis fr cs hfd hvis hfr1 hfr2 hcs hnd
    by_cases hemp : fr.isEmpty
    · have hret : encLoop contacts (fuel + 1) d vis fr cs = cs := by
        rw [encLoop, if_pos hemp]
      rw [hret]
      have hempty_d : ∀ v, ¬ atDistance contacts s d v := by
        intro v hv
        have hmem := hfr2 v hv
        rw [List.isEmpty_iff] at hemp
        rw [hemp] at hmem
        exact List.not_mem_nil v hmem
      refine ⟨hnd, fun q => ?_⟩
      rw [hcs q]
      constructor
      · rintro ⟨e, he, h1, h2⟩
        exact ⟨e, by omega, h1, h2⟩
      · rintro ⟨e, he, h1, h2⟩
        rcases Nat.lt_or_ge e d with hlt | hge
        · exact ⟨e, hlt, h1, h2⟩
        · exact absurd h1 (atDistance_empty_ge contacts s d e hge hempty_d q.1)
    · have hstep : encLoop contacts (fuel + 1) d vis fr cs
          = encLoop contacts fuel (d + 1)
              (fr.foldl (visitNode contacts (1 / 2 ^ (d + 1))) (vis, [], cs)).1
              (fr.foldl (visitNode contacts (1 / 2 ^ (d + 1))) (vis, [], cs)).2.1
              (fr.foldl (visitNode contacts (1 / 2 ^ (d + 1))) (vis, [], cs)).2.2 := by
        rw [encLoop, if_neg hemp]
      rw [hstep]
      have hcs0 : ∀ p ∈ cs, p.1 ∈ vis := by
        intro p hp
        obtain ⟨e, he, h1, _⟩ := (hcs p).mp hp
        exact (hvis p.1).mpr ⟨e, he, h1⟩
      obtain ⟨m1, m2, c3, c4, c5, c6, c7, c8⟩ :=
        foldl_visitNode_spec contacts (1 / 2 ^ (d + 1)) fr vis [] cs hcs0 hnd
          List.nodup_nil
      refine ih (d + 1) _ _ _ (by omega) ?_ ?_ ?_ ?_ c3
      · intro v
        rw [m1 v]
        constructor
        · rintro (h | h)
          · obtain ⟨e, he, h1⟩ := (hvis v).mp h
            exact ⟨e, by omega, h1⟩
          · obtain ⟨e, he, h1⟩ :=
              (reachIn_iff_exists_level contacts s d v).mp (hfr1 v h)
            exact ⟨e, by omega, h1⟩
        · rintro ⟨e, he, h1⟩
          rcases Nat.lt_or_ge e d with hlt | hge
          · exact Or.inl ((hvis v).mpr ⟨e, hlt, h1⟩)
          · have hed : e = d := by omega
            subst hed
            exact Or.inr (hfr2 v h1)
      · intro v hv
        rcases c5 v hv with h | ⟨u, hu, he⟩
        · exact absurd h (List.not_mem_nil v)
        · exact Or.inr ⟨u, hfr1 u hu, he⟩
      · intro v hv
        rw [atDistance_succ_levels] at hv
        obtain ⟨⟨u, hu, he⟩, hnr⟩ := hv
        have hufr : u ∈ fr := hfr2 u hu
        have hunvis : u ∉ vis := by
          intro hcontra
          obtain ⟨e, helt, h1⟩ := (hvis u).mp hcontra
          have heq := atDistance_unique contacts s e d u h1 hu
          omega
        have hvh : v ∉ (fr.foldl (visitNode contacts (1 / 2 ^ (d + 1))) (vis, [], cs)).1 := by
          intro hcontra
          rcases (m1 v).mp hcontra with h | h
          · obtain ⟨e, helt, h1⟩ := (hvis v).mp h
            exact hnr (reachIn_mono contacts s (by omega : e ≤ d) v
              (atDistance_reachIn contacts s e v h1))
          · exact hnr (hfr1 v h)
        exact c6 u v hufr hunvis he hvh
      · intro q
        rw [m2 q]
        constructor
        · rintro (h | ⟨h1, h2, h3⟩)
          · obtain ⟨e, he, ha, hb⟩ := (hcs q).mp h
            exact ⟨e, by omega, ha, hb⟩
          · obtain ⟨e, he, ha⟩ :=
              (reachIn_iff_exists_level contacts s d q.1).mp (hfr1 q.1 h1)
            have hed : e = d := by
              by_contra hne
              have helt : e < d := by omega
              exact h2 ((hvis q.1).mpr ⟨e, helt, ha⟩)
            subst hed
            exact ⟨e, by omega, ha, h3⟩
        · rintro ⟨e, he, ha, hb⟩
          rcases Nat.lt_or_ge e d with hlt | hge
          · exact Or.inl ((hcs q).mpr ⟨e, hlt, ha, hb⟩)
          · have hed : e = d := by omega
            subst hed
            refine Or.inr ⟨hfr2 q.1 ha, ?_, hb⟩
            intro hcontra
            obtain ⟨f, hflt, h1⟩ := (hvis q.1).mp hcontra
            have heq := atDistance_unique contacts s f e q.1 h1 ha
            omega

lemma eq_singleton_of_mem_iff {α β : Type} (L : List (α × β)) (a : α × β)
    (hnd : (L.map Prod.fst).Nodup) (h : ∀ x, x ∈ L ↔ x = a) : L = [a] := by
  cases L with
  | nil => exact absurd ((h a).mpr rfl) (List.not_mem_nil a)
  | cons x t =>
    have hx : x = a := (h x).mp (List.mem_cons_self x t)
    subst hx
    cases t with
    | nil => rfl
    | cons y t2 =>
      have hy : y = x := (h y).mp (List.mem_cons_of_mem x (List.mem_cons_self y t2))
      subst hy
      simp at hnd

lemma encContribs_spec (contacts : V → List V) (Dmax : Nat) (s : V) :
    ((encContribs contacts Dmax s).map Prod.fst).Nodup ∧
    (∀ q : V × ℚ, q ∈ encContribs contacts Dmax s ↔
        ∃ e, e ≤ Dmax ∧ atDistance contacts s e q.1 ∧ q.2 = 1 / 2 ^ (e + 1)) := by
  unfold encContribs
  refine encLoop_spec contacts s Dmax (Dmax + 1) 0 [] [s] [] (by omega) ?_ ?_ ?_ ?_
    List.nodup_nil
  · intro v
    simp only [List.not_mem_nil, false_iff]
    rintro ⟨e, he, _⟩
    omega
  · intro v hv
    rw [List.mem_singleton] at hv
    exact hv
  · intro v hv
    exact List.mem_singleton.mpr hv
  · intro q
    simp only [List.not_mem_nil, false_iff]
    rintro ⟨e, he, _⟩
    omega

end BFSLemmas

/-- C1. BFS depth correctness of Algorithm 4, for both the plaintext loop
(`computeIVSPlaintext` / `computeIVS`) and the encrypted-IVS variant
(`computeEncryptedIVS` / `computeEncryptedIVSProduction`): for every
contact graph, infection map and source `s`, (i) the plaintext frontier
whose nodes receive weight `1 / 2 ^ (d + 1)` is duplicate-free and is
EXACTLY the set of nodes at shortest-path distance `d` from `s`, for every
`d`; (ii) the computed score is the sum, over `d = 0 .. Dmax`, of
`1 / 2 ^ (d + 1)` times the total health status of the distance-`d` level
set; and (iii) the encrypted variant's contribution list pairs each node of
shortest-path distance `d ≤ Dmax` with weight `1 / 2 ^ (d + 1)`, exactly
once per node (the owner list is duplicate-free) — so no node's health
status enters `IVS[s]` more than once even when it is reachable via
multiple paths. -/
theorem bfs_depth_correctness {V : Type} [DecidableEq V] [Fintype V]
    (contacts : V → List V) (infected : V → ℚ) (Dmax : Nat) (s : V) :
    (∀ d : Nat, (bfsState contacts s d).2.Nodup ∧
        ∀ v : V, v ∈ (bfsState contacts s d).2 ↔ atDistance contacts s d v) ∧
    ivsFor contacts infected Dmax s
      = ∑ d in Finset.range (Dmax + 1),
          (1 / 2 ^ (d + 1) : ℚ) * ∑ v in levelFinset contacts s d, infected v ∧
    ((encContribs contacts Dmax s).map Prod.fst).Nodup ∧
    (∀ (v : V) (wt : ℚ), (v, wt) ∈ encContribs contacts Dmax s ↔
        ∃ d, d ≤ Dmax ∧ atDistance contacts s d v ∧ wt = 1 / 2 ^ (d + 1)) := by
  refine ⟨?_, ?_, (encContribs_spec contacts Dmax s).1, ?_⟩
  · intro d
    obtain ⟨_, h2, hnd⟩ := bfsState_spec contacts s d
    exact ⟨hnd, h2⟩
  · have h0 : bfsState contacts s 0 = ([s], [s]) := rfl
    have hf := bfsLoop_formula contacts infected s Dmax (Dmax + 1) 0 0 (by omega)
    rw [h0] at hf
    rw [ivsFor, hf, Finset.range_eq_Ico, zero_add]
  · intro v wt
    exact (encContribs_spec contacts Dmax s).2 (v, wt)

/-- C2. The reference vectors: on the six-user graph with `Dmax = 2`,
Disease A (infected `{U2, U6}`) yields exactly
`{U1: 0.25, U2: 0.625, U3: 0.50, U4: 0.25, U5: 0.25, U6: 0.625}`,
Disease B (infected `{U1, U5}`) yields exactly
`{U1: 0.625, U2: 0.50, U3: 0.25, U4: 0, U5: 0.625, U6: 0}`, and the
elementwise sum gives the combined totals
`{U1: 0.875, U2: 1.125, U3: 0.75, U4: 0.25, U5: 0.875, U6: 0.625}`. -/
theorem reference_vectors :
    computeIVSPlaintext usersRef contactsRef infectedA 2
      = [("U1", 1/4), ("U2", 5/8), ("U3", 1/2), ("U4", 1/4), ("U5", 1/4), ("U6", 5/8)] ∧
    computeIVSPlaintext usersRef contactsRef infectedB 2
      = [("U1", 5/8), ("U2", 1/2), ("U3", 1/4), ("U4", 0), ("U5", 5/8), ("U6", 0)] ∧
    usersRef.map
        (fun s => ivsFor contactsRef infectedA 2 s + ivsFor contactsRef infectedB 2 s)
      = [7/8, 9/8, 3/4, 1/4, 7/8, 5/8] := by
  refine ⟨?_, ?_, ?_⟩ <;>
    · simp +decide [computeIVSPlaintext, usersRef, ivsFor, bfsLoop, expandFrontier,
        addNode, contactsRef, infectedA, infectedB]
      norm_num

/-- C9. A source with no contact-graph edges receives
`IVS[s] = weight(0) · health[s] = (1/2) · health[s]`: the depth-0 pass adds
the source's own weighted status and the frontier expansion finds no
neighbour, so the loop stops; in particular the score is zero exactly when
the source's own health status is zero.  The encrypted computation collects
exactly the single contribution `(s, 1/2)` — `weight(0)` times the source's
own (encrypted) status and nothing else. -/
theorem ivs_isolated_source {V : Type} [DecidableEq V]
    (contacts : V → List V) (infected : V → ℚ) (Dmax : Nat) (s : V)
    (h : contacts s = []) :
    ivsFor contacts infected Dmax s = 1 / 2 * infected s ∧
    (ivsFor contacts infected Dmax s = 0 ↔ infected s = 0) ∧
    encContribs contacts Dmax s = [(s, 1 / 2)] := by
  have hexp : expandFrontier contacts [s] [s] = ([s], []) := by
    simp [expandFrontier, h]
  have h1 : ivsFor contacts infected Dmax s = 1 / 2 * infected s := by
    rw [ivsFor, bfsLoop, if_neg (by simp), hexp]
    rw [bfsLoop_nil]
    simp
  have hiso : ∀ (e : Nat) (v : V), atDistance contacts s e v ↔ e = 0 ∧ v = s := by
    intro e v
    constructor
    · intro hv
      cases e with
      | zero => exact ⟨rfl, hv⟩
      | succ f =>
        exfalso
        have hlvl1 : ∀ u, ¬ atDistance contacts s 1 u := by
          intro u hu
          rw [atDistance_succ_levels] at hu
          obtain ⟨⟨u2, hu2, he⟩, _⟩ := hu
          have hs : u2 = s := hu2
          subst hs
          rw [h] at he
          exact List.not_mem_nil u he
        exact atDistance_empty_ge contacts s 1 (f + 1) (by omega) hlvl1 v hv
    · rintro ⟨he, hv⟩
      subst he
      subst hv
      exact rfl
  have hmem : ∀ q : V × ℚ, q ∈ encContribs contacts Dmax s ↔ q = (s, 1 / 2) := by
    intro q
    obtain ⟨q1, q2⟩ := q
    rw [(encContribs_spec contacts Dmax s).2 (q1, q2)]
    constructor
    · rintro ⟨e, he, ha, hb⟩
      obtain ⟨he0, hq1⟩ := (hiso e q1).mp ha
      subst he0
      subst hq1
      rw [Prod.mk.injEq]
      refine ⟨rfl, ?_⟩
      have hb2 : q2 = 1 / 2 ^ (0 + 1) := hb
      rw [hb2]
      norm_num
    · intro hq
      rw [Prod.mk.injEq] at hq
      obtain ⟨hq1, hq2⟩ := hq
      subst hq1
      subst hq2
      exact ⟨0, by omega, rfl, by norm_num⟩
  refine ⟨h1, ?_, ?_⟩
  · rw [h1, mul_eq_zero]
    norm_num
  · exact eq_singleton_of_mem_iff (encContribs contacts Dmax s) (s, 1 / 2)
      (encContribs_spec contacts Dmax s).1 hmem

/-- C9 (witness). A one-vertex graph with no edges and health status 1:
the computed IVS is `1/2 · 1 = 1/2`, which is nonzero. -/
theorem ivs_isolated_source_witness :
    ivsFor (fun _ : Fin 1 => ([] : List (Fin 1))) (fun _ => (1 : ℚ)) 2 0 = 1 / 2 ∧
    ivsFor (fun _ : Fin 1 => ([] : List (Fin 1))) (fun _ => (1 : ℚ)) 2 0 ≠ 0 := by
  have h := ivs_isolated_source (fun _ : Fin 1 => ([] : List (Fin 1)))
    (fun _ => (1 : ℚ)) 2 0 rfl
  constructor
  · rw [h.1]
    norm_num
  · rw [h.1]
    norm_num

/-! ## Theorems: threshold layer -/

/-- C4. `combinePartialDecryptions` fails with `InsufficientShares` if and
only if strictly fewer than `threshold` partial decryptions are supplied;
with at least `threshold` partials that error is never raised. -/
theorem combine_insufficientShares_iff (params : ThresholdParams)
    (partials : List PartialDecryption) :
    (∃ need got, combinePartialDecryptions params partials
        = .error (.insufficientShares need got))
      ↔ partials.length < params.threshold := by
  unfold combinePartialDecryptions
  by_cases h : partials.length < params.threshold
  · simp [h]
  · simp only [h, if_neg, if_false, iff_false]
    rintro ⟨need, got, hcontra⟩
    cases partials with
    | nil => simp at hcontra
    | cons p rest => simp at hcontra

/-- C3 (failing input). The combination step is order-dependent: with
threshold 2, the same two qualified partial decryptions supplied in the two
possible orders yield the two DIFFERENT plaintexts `"ptA"` and `"ptB"` —
the code returns whatever plaintext comes first instead of interpolating,
so which qualifying subset (and order) is chosen changes the result. -/
theorem combine_is_order_dependent :
    combinePartialDecryptions ⟨3, 2⟩
        [⟨"P1", 1, "ptA", none⟩, ⟨"P2", 2, "ptB", none⟩] = .ok "ptA" ∧
    combinePartialDecryptions ⟨3, 2⟩
        [⟨"P2", 2, "ptB", none⟩, ⟨"P1", 1, "ptA", none⟩] = .ok "ptB" ∧
    ("ptA" : String) ≠ "ptB" := by
  refine ⟨rfl, rfl, by decide⟩

/-- C5. `generateKeys` fails with a committee-size mismatch exactly when the
committee size differs from `totalShares`; on success it returns one key
share per committee member, in committee order, with `shareIndex` running
`1..N`. -/
theorem generateKeys_spec (kg : SealKeyGen) (params : ThresholdParams)
    (committee : List CommitteeMember) :
    ((∃ expected got, generateKeys kg params committee
        = .error (.committeeSizeMismatch expected got))
      ↔ committee.length ≠ params.totalShares) ∧
    (committee.length = params.totalShares →
      generateKeys kg params committee
        = .ok (kg.jointPublicKey, mkShares kg 0 committee)) ∧
    (mkShares kg 0 committee).map KeyShare.shareIndex
        = List.range' 1 committee.length ∧
    (mkShares kg 0 committee).map KeyShare.partyId
        = committee.map CommitteeMember.id := by
  refine ⟨?_, ?_, ?_, ?_⟩
  · unfold generateKeys
    by_cases h : committee.length = params.totalShares
    · simp [h]
    · simp [h]
  · intro h
    unfold generateKeys
    simp [h]
  · suffices H : ∀ (i : Nat) (l : List CommitteeMember),
        (mkShares kg i l).map KeyShare.shareIndex = List.range' (i + 1) l.length by
      exact H 0 committee
    intro i l
    induction l generalizing i with
    | nil => simp [mkShares]
    | cons m rest ih => simp [mkShares, List.range', ih]
  · suffices H : ∀ (i : Nat) (l : List CommitteeMember),
        (mkShares kg i l).map KeyShare.partyId = l.map CommitteeMember.id by
      exact H 0 committee
    intro i l
    induction l generalizing i with
    | nil => simp [mkShares]
    | cons m rest ih => simp [mkShares, ih]

/-- C5 (witness). A concrete three-member committee with `totalShares = 3`:
key generation succeeds and the share indices are `[1, 2, 3]` in committee
order. -/
theorem generateKeys_spec_witness :
    generateKeys ⟨"jpk", fun i => toString i⟩ ⟨3, 2⟩
        [⟨"A", "a1", none⟩, ⟨"B", "a2", none⟩, ⟨"C", "a3", none⟩]
      = .ok ("jpk", mkShares ⟨"jpk", fun i => toString i⟩ 0
          [⟨"A", "a1", none⟩, ⟨"B", "a2", none⟩, ⟨"C", "a3", none⟩]) ∧
    (mkShares ⟨"jpk", fun i => toString i⟩ 0
        [⟨"A", "a1", none⟩, ⟨"B", "a2", none⟩, ⟨"C", "a3", none⟩]).map
      KeyShare.shareIndex = [1, 2, 3] := by
  refine ⟨(generateKeys_spec ⟨"jpk", fun i => toString i⟩ ⟨3, 2⟩
    [⟨"A", "a1", none⟩, ⟨"B", "a2", none⟩, ⟨"C", "a3", none⟩]).2.1 rfl, rfl⟩

/-- C6. `canDecrypt` returns `true` exactly when a policy is registered for
the artifact and the requester is allowed or the wildcard `"*"` is; for an
unregistered artifact it returns `false` (and, being a total `Bool`
function, never throws). -/
theorem canDecrypt_iff (mgr : PolicyManager) (dataCid requester : String) :
    (canDecrypt mgr dataCid requester = true ↔
      ∃ policy, lookupPolicy mgr dataCid = some policy ∧
        (requester ∈ policy.allowedRequesters ∨ "*" ∈ policy.allowedRequesters)) ∧
    (lookupPolicy mgr dataCid = none → canDecrypt mgr dataCid requester = false) := by
  constructor
  · unfold canDecrypt
    cases h : lookupPolicy mgr dataCid with
    | none => simp
    | some policy =>
      by_cases hw : policy.allowedRequesters.contains "*"
      · simp only [hw, if_true, true_iff]
        exact ⟨policy, rfl, Or.inr (by simpa using hw)⟩
      · simp only [hw, if_false]
        constructor
        · intro hr
          exact ⟨policy, rfl, Or.inl (by simpa using hr)⟩
        · rintro ⟨policy2, hp2, hmem⟩
          injection hp2 with he
          subst he
          rcases hmem with hreq | hstar
          · simpa using hreq
          · exact absurd (by simpa using hstar) (by simpa using hw)
  · intro h
    unfold canDecrypt
    rw [h]

/-- C10. `verifyPartialDecryption` returns `true` on every input triple, so
the drop-unverifiable filter of the Collecting → Combining transition keeps
every partial: the dropping-and-replacement path is never taken. -/
theorem verify_always_true (α β : Type) :
    (∀ (part : PartialDecryption) (ct : α) (pk : β),
        verifyPartialDecryption part ct pk = true) ∧
    (∀ (partials : List PartialDecryption) (ct : α) (pk : β),
        dropUnverifiable partials ct pk = partials) := by
  refine ⟨fun part ct pk => rfl, fun partials ct pk => ?_⟩
  simp [dropUnverifiable, verifyPartialDecryption]

/-! ## Theorems: CKKS scale/level bookkeeping -/

/-- C7 (counterexample). The claim "multiplyByPlain returns a result at the
same scale and the same modulus level as ct (no level drop and no rescale)"
is false on the code.  With the source's own parameters (scale `2 ^ 40`,
every dropped prime modelled as `2 ^ 40`): a ciphertext with one level left
comes back ONE LEVEL LOWER (the function rescales), and a ciphertext at the
last modulus level comes back with its scale SQUARED (the encode-at-own-
scale multiplication doubles the scale exponent and the rescale is
unavailable); the `ckks-mhe` variant does not even encode the weight at the
ciphertext's scale, so a ciphertext whose scale drifted to `2 ^ 39` comes
back at `2 ^ 39 * 2 ^ 40`, not `2 ^ 39`. -/
theorem multiplyByPlain_claim_false :
    (multiplyByPlainProd (fun _ => (2 : ℚ) ^ 40) ⟨2 ^ 40, 1, 1⟩ (1 / 2)).level ≠
      (⟨2 ^ 40, 1, 1⟩ : CipherText).level ∧
    (multiplyByPlainProd (fun _ => (2 : ℚ) ^ 40) ⟨2 ^ 40, 0, 1⟩ (1 / 2)).scale ≠
      (⟨2 ^ 40, 0, 1⟩ : CipherText).scale ∧
    (multiplyByPlainMHE ((2 : ℚ) ^ 40) ⟨2 ^ 39, 2, 1⟩ (1 / 2)).scale ≠
      (⟨2 ^ 39, 2, 1⟩ : CipherText).scale := by
  refine ⟨by decide, ?_, ?_⟩
  · show ((2 : ℚ) ^ 40 * 2 ^ 40 : ℚ) ≠ 2 ^ 40
    norm_num
  · show ((2 : ℚ) ^ 39 * 2 ^ 40 : ℚ) ≠ 2 ^ 39
    norm_num

/-- C7 (amended). `ckks-production`'s `multiplyByPlain` encodes the scalar
at the ciphertext's own scale and multiplies, which SQUARES the scale; it
then attempts one rescale: off the last modulus level the result is one
level below `ct` with scale `ct.scale² / prime`, and at the last level the
rescale is skipped, leaving the level unchanged and the scale squared.  The
`ckks-mhe` variant instead encodes at the context's global scale and never
rescales: the result keeps `ct`'s level with scale `ct.scale * ctxScale`. -/
theorem multiplyByPlain_scale_level (prime : Nat → ℚ) (ctxScale : ℚ)
    (ct : CipherText) (w : ℚ) :
    (ct.level ≠ 0 → multiplyByPlainProd prime ct w
        = ⟨ct.scale * ct.scale / prime ct.level, ct.level - 1, ct.value * w⟩) ∧
    (ct.level = 0 → multiplyByPlainProd prime ct w
        = ⟨ct.scale * ct.scale, 0, ct.value * w⟩) ∧
    multiplyByPlainMHE ctxScale ct w
        = ⟨ct.scale * ctxScale, ct.level, ct.value * w⟩ := by
  refine ⟨?_, ?_, rfl⟩
  · intro h
    simp [multiplyByPlainProd, evalMultiplyPlain, rescaleToNext, h]
  · intro h
    simp [multiplyByPlainProd, evalMultiplyPlain, rescaleToNext, h]

/-- C8 (counterexample). The tolerance in `add` is an ABSOLUTE 0.001 on the
scale values, not a relative error of 1e-3: two operands whose scales are
`1000.5` and `1000` differ by a relative error of about `5·10⁻⁴ ≤ 10⁻³`, so
under the claim they would be added directly (result scale `1000.5`), but
the code takes the coercion branch and returns scale `min = 1000`. -/
theorem add_claim_false :
    relScaleDiff (2001 / 2) 1000 ≤ 1 / 1000 ∧
    addProd ⟨2001 / 2, 0, 0⟩ ⟨1000, 0, 0⟩ ≠ evalAdd ⟨2001 / 2, 0, 0⟩ ⟨1000, 0, 0⟩ := by
  have habs : |(2001 / 2 : ℚ) - 1000| = 1 / 2 := by
    rw [show (2001 / 2 : ℚ) - 1000 = 1 / 2 by norm_num,
      abs_of_pos (by norm_num : (0 : ℚ) < 1 / 2)]
  constructor
  · unfold relScaleDiff
    rw [habs,
      abs_of_pos (by norm_num : (0 : ℚ) < 2001 / 2),
      abs_of_pos (by norm_num : (0 : ℚ) < 1000),
      max_eq_left (by norm_num : (1000 : ℚ) ≤ 2001 / 2)]
    norm_num
  · intro h
    have hs := congrArg CipherText.scale h
    have hcond : |(2001 / 2 : ℚ) - 1000| > scaleTolerance := by
      rw [habs]; norm_num [scaleTolerance]
    simp only [addProd, evalAdd, setScale] at hs
    rw [if_pos hcond] at hs
    simp only [min_def] at hs
    norm_num at hs

/-- C8 (amended). When the scales of the two operands differ by more than
the ABSOLUTE tolerance 0.001, `add` clones both operands, coerces the
clones to `min(scale1, scale2)` and adds the clones — so the result carries
`min(scale1, scale2)` and the original operand values are untouched (the
embedding is pure; the source clones before its in-place `setScale`); when
the scales are within the absolute tolerance the operands are added
directly. -/
theorem add_scale_coercion (c1 c2 : CipherText) :
    (|c1.scale - c2.scale| > scaleTolerance →
      addProd c1 c2
          = evalAdd (setScale c1 (min c1.scale c2.scale)) (setScale c2 (min c1.scale c2.scale)) ∧
      (addProd c1 c2).scale = min c1.scale c2.scale) ∧
    (¬ |c1.scale - c2.scale| > scaleTolerance → addProd c1 c2 = evalAdd c1 c2) := by
  constructor
  · intro h
    constructor
    · simp [addProd, h]
    · simp [addProd, h, evalAdd, setScale]
  · intro h
    simp [addProd, h]

end Multiivs
